import Mathlib

/-!
# A verification model of `fd` (simple file-finding tool), `src/main.rs`

Shallow embedding of the program: the filesystem is a tree of nodes, the
`walkdir` capability becomes a recursive walk producing a list of traversal
items (`none` = a step that yielded `Err`), the `regex` capability is modelled
for literal patterns as (optionally case-insensitive) substring search, and
`println!` output becomes a list of `Line` values in emission order.
-/

/-- Model of the external `regex` crate's `Match` position: `find` returns the
starting index of the leftmost match, or `none`. Substring search of `needle`
in `hay`, over `List Char`. -/
def findSub (needle : List Char) : List Char → Option Nat
  | [] => if needle = [] then some 0 else none
  | c :: hay =>
      if needle.isPrefixOf (c :: hay) then some 0
      else (findSub needle hay).map (· + 1)

/-- ASCII lowercasing of a string (model of case folding used by
`case_insensitive` matching; the Rust code folds Unicode, the claims only
need ASCII). -/
def lowerStr (s : String) : String := String.mk (s.data.map Char.toLower)

/-- Models the compiled matcher `RegexBuilder::new(pat).case_insensitive(ci).build()`,
restricted to literal patterns (no regex metacharacters): `find` is leftmost
substring search, folding case on both sides when `ci` is set. -/
def litFind (ci : Bool) (pat : String) (s : String) : Option Nat :=
  if ci then findSub (lowerStr pat).data (lowerStr s).data
  else findSub pat.data s.data

/-- A filesystem tree node: regular file, directory, symbolic link (to a
regular file, to a directory whose target holds `children`, or broken), or a
traversal step that yields `Err` (permission denied, disappeared entry, …). -/
inductive FSNode where
  | file (name : String)
  | dir (name : String) (children : List FSNode)
  | symlinkFile (name : String)
  | symlinkDir (name : String) (children : List FSNode)
  | symlinkBroken (name : String)
  | err (name : String)
deriving Repr

/-- The name (final path component) of a node. -/
def FSNode.name : FSNode → String
  | .file n => n
  | .dir n _ => n
  | .symlinkFile n => n
  | .symlinkDir n _ => n
  | .symlinkBroken n => n
  | .err n => n

/-- Model of `walkdir::DirEntry`: path relative to the walk root (the entry's
absolute path is the root path followed by `relPath`), the entry's file name,
and its file-type classification. `isLink` models `path_is_symbolic_link()`;
`isFileK` / `isDirK` model `Path::is_file()` / `Path::is_dir()` on the entry's
path (which follow symlinks). -/
structure DirEntry where
  relPath : List String
  name : String
  isLink : Bool
  isFileK : Bool
  isDirK : Bool
deriving Repr, DecidableEq

/-- The `DirEntry` for a node sitting at `rel ++ [n]` relative to the root. -/
def entryFor (rel : List String) (node : FSNode) : DirEntry :=
  match node with
  | .file n => ⟨rel ++ [n], n, false, true, false⟩
  | .dir n _ => ⟨rel ++ [n], n, false, false, true⟩
  | .symlinkFile n => ⟨rel ++ [n], n, true, true, false⟩
  | .symlinkDir n _ => ⟨rel ++ [n], n, true, false, true⟩
  | .symlinkBroken n => ⟨rel ++ [n], n, true, false, false⟩
  | .err n => ⟨rel ++ [n], n, false, false, false⟩

mutual

/-- Model of `WalkDir::new(..).follow_links(follow).into_iter().filter_entry(p)`
restricted to the subtree rooted at one node whose parent directory lies at
`rel` below the root: depth-first items, `some e` an `Ok` entry, `none` an
`Err` item. The predicate `p` (from `filter_entry`) sees only `Ok` entries;
when a directory fails `p` the walker does not descend into it, so its whole
subtree is absent. A symbolic link to a directory is descended into only when
`follow` is set. -/
def walkNode (follow : Bool) (p : DirEntry → Bool) (rel : List String) :
    FSNode → List (Option DirEntry)
  | .file n =>
      if p (entryFor rel (.file n)) then [some (entryFor rel (.file n))] else []
  | .dir n cs =>
      if p (entryFor rel (.dir n cs)) then
        some (entryFor rel (.dir n cs)) :: walkForest follow p (rel ++ [n]) cs
      else []
  | .symlinkFile n =>
      if p (entryFor rel (.symlinkFile n)) then [some (entryFor rel (.symlinkFile n))] else []
  | .symlinkDir n cs =>
      if p (entryFor rel (.symlinkDir n cs)) then
        some (entryFor rel (.symlinkDir n cs)) ::
          (if follow then walkForest follow p (rel ++ [n]) cs else [])
      else []
  | .symlinkBroken n =>
      if p (entryFor rel (.symlinkBroken n)) then [some (entryFor rel (.symlinkBroken n))] else []
  | .err _ => [none]

/-- The walk of a list of sibling nodes, in order. -/
def walkForest (follow : Bool) (p : DirEntry → Bool) (rel : List String) :
    List FSNode → List (Option DirEntry)
  | [] => []
  | c :: rest => walkNode follow p rel c ++ walkForest follow p rel rest

end

/-- The `DirEntry` the walker yields for the walk root itself: its `relPath`
is empty and its name is the root path's final component; the root (the
current directory) is a directory. -/
def rootEntry (rootName : String) : DirEntry := ⟨[], rootName, false, false, true⟩

/-- The full walk starting at the root directory named `rootName` with
children `cs`: `filter_entry`'s predicate is applied to the root entry as
well, and when it fails nothing at all is yielded. -/
def walkRoot (follow : Bool) (p : DirEntry → Bool) (rootName : String)
    (cs : List FSNode) : List (Option DirEntry) :=
  if p (rootEntry rootName) then some (rootEntry rootName) :: walkForest follow p [] cs
  else []

/-- Configuration snapshot, `struct FdOptions` in `main.rs`. -/
structure FdOptions where
  case_sensitive : Bool
  search_full_path : Bool
  search_hidden : Bool
  follow_links : Bool
  colored : Bool
deriving Repr, DecidableEq

/-- The terminal colours used by `print_entry` (`ansi_term::Colour`). -/
inductive Colour where
  | Purple
  | Cyan
  | White
deriving Repr, DecidableEq

/-- One line of standard output: either a plain path string or a path string
wrapped in one colour's styling codes. -/
inductive Line where
  | plain (s : String)
  | painted (c : Colour) (s : String)
deriving Repr, DecidableEq

/-- `print_entry`: render one matched path. Colour choice: symbolic link ⇒
Purple, else directory ⇒ Cyan, else White; no colour ⇒ the verbatim string. -/
def print_entry (entry : DirEntry) (path_str : String) (config : FdOptions) : Line :=
  if config.colored then
    Line.painted
      (if entry.isLink then Colour.Purple
       else if entry.isDirK then Colour.Cyan
       else Colour.White)
      path_str
  else Line.plain path_str

/-- `str::starts_with` over the characters of the strings. -/
def strStartsWith (s pre : String) : Bool := pre.data.isPrefixOf s.data

/-- `is_hidden`: the entry's file name starts with a dot. (`file_name()` of a
`DirEntry` is always valid UTF-8 here since names are modelled as `String`,
so the `to_str … unwrap_or(false)` fallback never fires.) -/
def is_hidden (entry : DirEntry) : Bool := strStartsWith entry.name "."

/-- Model of `Path::strip_prefix`: remove `base` from the front of `path`
component-wise, `none` when `base` is not a prefix. -/
def stripPfx : (base : List String) → (path : List String) → Option (List String)
  | [], l => some l
  | _ :: _, [] => none
  | a :: as, b :: bs => if a = b then stripPfx as bs else none

/-- Model of `Path::to_str` for a relative path given by its components:
components joined by the path separator. -/
def renderPath : List String → String
  | [] => ""
  | [a] => a
  | a :: rest => a ++ "/" ++ renderPath rest

/-- The filtered walker built at the top of `scan`:
`filter_entry(|e| config.search_hidden || !is_hidden(e))` prunes during the
walk, `.filter_map(|e| e.ok())` drops `Err` items, and
`.filter(|e| e.path() != root)` drops the root itself (an entry's absolute
path is `rootAbs ++ relPath`). -/
def walker (config : FdOptions) (rootAbs : List String) (rootName : String)
    (cs : List FSNode) : List DirEntry :=
  ((walkRoot config.follow_links (fun e => config.search_hidden || !is_hidden e)
      rootName cs).filterMap id).filter
    (fun e => decide (rootAbs ++ e.relPath ≠ rootAbs))

/-- The body of `scan`'s `for` loop for one walker entry: compute the path
relative to the root (skip the entry when `strip_prefix` fails), render it,
match — against the rendered relative path in full-path mode, otherwise only
for entries whose relative path is a regular file (`path_rel.is_file()`,
which resolves against the current directory = the root, hence `isFileK`) and
against the file name alone — and print on a match. -/
def processEntry (rootAbs : List String) (pattern : String → Option Nat)
    (config : FdOptions) (entry : DirEntry) : Option Line :=
  match stripPfx rootAbs (rootAbs ++ entry.relPath) with
  | none => none
  | some path_rel =>
      let path_str := renderPath path_rel
      let res : Option Nat :=
        if config.search_full_path then pattern path_str
        else if !entry.isFileK then none
        else path_rel.getLast?.bind fun s => pattern s
      res.map fun _ => print_entry entry path_str config

/-- `scan`: the lines printed, in order, by scanning the root directory
(named `rootName`, absolute path `rootAbs`, children `cs`) with the given
compiled pattern and configuration. -/
def scan (rootAbs : List String) (rootName : String) (cs : List FSNode)
    (pattern : String → Option Nat) (config : FdOptions) : List Line :=
  (walker config rootAbs rootName cs).filterMap (processEntry rootAbs pattern config)

/-- The command-line flags consumed by `main` (`getopts` results). -/
structure CliFlags where
  sensitive : Bool
  filename : Bool
  hidden : Bool
  follow : Bool
  no_color : Bool
deriving Repr, DecidableEq

/-- `main`'s pattern selection: the first free argument, or the empty string
when none is supplied. -/
def patternOf (free : List String) : String := (free.get? 0).getD ""

/-- `main`'s construction of `FdOptions` from the parsed flags and the
pattern text (smart case: sensitive iff the flag is set or the pattern
contains an uppercase character; `char::is_uppercase` modelled on ASCII). -/
def mkConfig (flags : CliFlags) (pattern : String) : FdOptions :=
  { case_sensitive := flags.sensitive || pattern.data.any Char.isUpper
    search_full_path := !flags.filename
    search_hidden := flags.hidden
    follow_links := flags.follow
    colored := !flags.no_color }

/-- The whole run of `main` after successful argument parsing, for a literal
pattern: derive the configuration, compile the pattern with
`case_insensitive(!config.case_sensitive)`, and scan the current directory. -/
def fdRun (flags : CliFlags) (free : List String) (rootAbs : List String)
    (rootName : String) (cs : List FSNode) : List Line :=
  let pattern := patternOf free
  let config := mkConfig flags pattern
  scan rootAbs rootName cs (litFind (!config.case_sensitive) pattern) config

mutual

/-- Remove every traversal step that yields `Err` from a node's subtree. -/
def dropErrsN : FSNode → FSNode
  | .file n => .file n
  | .dir n cs => .dir n (dropErrsF cs)
  | .symlinkFile n => .symlinkFile n
  | .symlinkDir n cs => .symlinkDir n (dropErrsF cs)
  | .symlinkBroken n => .symlinkBroken n
  | .err n => .err n

/-- Remove every traversal step that yields `Err` from a forest. -/
def dropErrsF : List FSNode → List FSNode
  | [] => []
  | .err _ :: rest => dropErrsF rest
  | c :: rest => dropErrsN c :: dropErrsF rest

end

mutual

/-- Remove every node whose own name starts with a dot (and, recursively,
every such node below a visible one) from a node's subtree. -/
def pruneHiddenN : FSNode → FSNode
  | .file n => .file n
  | .dir n cs => .dir n (pruneHiddenF cs)
  | .symlinkFile n => .symlinkFile n
  | .symlinkDir n cs => .symlinkDir n (pruneHiddenF cs)
  | .symlinkBroken n => .symlinkBroken n
  | .err n => .err n

/-- Remove every hidden-named node from a forest, recursively. -/
def pruneHiddenF : List FSNode → List FSNode
  | [] => []
  | c :: rest =>
      if strStartsWith c.name "." then pruneHiddenF rest
      else pruneHiddenN c :: pruneHiddenF rest

end

/-! ## Claim theorems -/

/-- C1: for every invocation the derived `case_sensitive` value is true iff
the sensitivity flag is set or the pattern contains an uppercase character,
and the compiled pattern matches case-insensitively exactly when
`case_sensitive` is false: `"readme"` matches both `"README.md"` and
`"readme.md"`, while `"Readme"` matches `"Readme.md"` but not `"readme.md"`. -/
theorem smart_case_flag_and_matching :
    (∀ (flags : CliFlags) (pat : String),
        (mkConfig flags pat).case_sensitive = (flags.sensitive || pat.data.any Char.isUpper)) ∧
    (∀ (flags : CliFlags) (pat s : String),
        litFind (!(mkConfig flags pat).case_sensitive) pat s =
          if (mkConfig flags pat).case_sensitive then findSub pat.data s.data
          else findSub (lowerStr pat).data (lowerStr s).data) ∧
    (litFind (!(mkConfig ⟨false, false, false, false, false⟩ "readme").case_sensitive)
        "readme" "README.md").isSome = true ∧
    (litFind (!(mkConfig ⟨false, false, false, false, false⟩ "readme").case_sensitive)
        "readme" "readme.md").isSome = true ∧
    (litFind (!(mkConfig ⟨false, false, false, false, false⟩ "Readme").case_sensitive)
        "Readme" "Readme.md").isSome = true ∧
    (litFind (!(mkConfig ⟨false, false, false, false, false⟩ "Readme").case_sensitive)
        "Readme" "readme.md").isSome = false := by
  refine ⟨fun flags pat => rfl, fun flags pat s => ?_, by decide, by decide, by decide, by decide⟩
  by_cases h : (mkConfig flags pat).case_sensitive <;> simp [litFind, h]

/-- C2 as stated is false: for the all-lowercase pattern `"readme"`, setting
the sensitivity flag flips `case_sensitive` from `false` to `true`, and the
run over a root holding `README.md` prints nothing with the flag but prints
`README.md` without it. -/
theorem sensitive_flag_changes_lowercase_run :
    (mkConfig ⟨true, false, false, false, false⟩ "readme").case_sensitive = true ∧
    (mkConfig ⟨false, false, false, false, false⟩ "readme").case_sensitive = false ∧
    fdRun ⟨true, false, false, false, true⟩ ["readme"] ["r"] "r" [.file "README.md"] = [] ∧
    fdRun ⟨false, false, false, false, true⟩ ["readme"] ["r"] "r" [.file "README.md"] =
      [Line.plain "README.md"] := by decide

/-- C2 (amended): for every pattern that contains at least one uppercase
character, explicitly setting the case-sensitivity flag is a no-op — the
resulting configuration and the lines printed by the run are identical to
those of a run without the flag. -/
theorem sensitive_flag_noop_on_uppercase_pattern (flags : CliFlags) (pat : String)
    (h : pat.data.any Char.isUpper = true) (rest : List String) (rootAbs : List String)
    (rootName : String) (cs : List FSNode) :
    mkConfig { flags with sensitive := true } pat =
      mkConfig { flags with sensitive := false } pat ∧
    fdRun { flags with sensitive := true } (pat :: rest) rootAbs rootName cs =
      fdRun { flags with sensitive := false } (pat :: rest) rootAbs rootName cs := by
  have hc : mkConfig { flags with sensitive := true } pat =
      mkConfig { flags with sensitive := false } pat := by
    simp [mkConfig, h]
  exact ⟨hc, by simp [fdRun, patternOf, hc]⟩

/-- Witness for the amended C2 at pattern `"Readme"`. -/
theorem sensitive_flag_noop_witness :
    "Readme".data.any Char.isUpper = true ∧
    (mkConfig ⟨true, false, false, false, false⟩ "Readme" =
       mkConfig ⟨false, false, false, false, false⟩ "Readme" ∧
     fdRun ⟨true, false, false, false, false⟩ ["Readme"] ["r"] "r" [.file "Readme.md"] =
       fdRun ⟨false, false, false, false, false⟩ ["Readme"] ["r"] "r" [.file "Readme.md"]) :=
  ⟨by decide, sensitive_flag_noop_on_uppercase_pattern ⟨true, false, false, false, false⟩
    "Readme" (by decide) [] ["r"] "r" [.file "Readme.md"]⟩

/-- C6: every line of `scan` output arises from a walker entry, and every
walker entry has a non-empty relative path — equivalently its absolute path
differs from the root's — so the search root itself is never printed, for
every root path, configuration and pattern. -/
theorem root_excluded_from_output (config : FdOptions) (rootAbs : List String)
    (rootName : String) (cs : List FSNode) (pattern : String → Option Nat) (l : Line)
    (hl : l ∈ scan rootAbs rootName cs pattern config) :
    ∃ e ∈ walker config rootAbs rootName cs,
      processEntry rootAbs pattern config e = some l ∧
      e.relPath ≠ [] ∧ rootAbs ++ e.relPath ≠ rootAbs := by
  rcases List.mem_filterMap.mp hl with ⟨e, he, hpe⟩
  have hne : rootAbs ++ e.relPath ≠ rootAbs :=
    of_decide_eq_true (List.mem_filter.mp he).2
  refine ⟨e, he, hpe, ?_, hne⟩
  intro h0
  exact hne (by simp [h0])

/-- Witness for C6: a file whose name equals the root's name is printed,
and the theorem locates its walker entry away from the root. -/
theorem root_excluded_witness :
    Line.plain "r" ∈ scan ["r"] "r" [.file "r"] (litFind true "r")
      ⟨false, true, false, false, false⟩ ∧
    ∃ e ∈ walker ⟨false, true, false, false, false⟩ ["r"] "r" [.file "r"],
      processEntry ["r"] (litFind true "r") ⟨false, true, false, false, false⟩ e =
        some (Line.plain "r") ∧
      e.relPath ≠ [] ∧ ["r"] ++ e.relPath ≠ ["r"] :=
  ⟨by decide, root_excluded_from_output _ _ _ _ _ _ (by decide)⟩

/-- C8: the printer prints the path verbatim when colour is off, and when
colour is on selects Purple for a symbolic link (taking precedence over the
directory check), Cyan for a directory, White otherwise, wrapping the same
path string. -/
theorem print_entry_contract :
    (∀ (e : DirEntry) (s : String) (c : FdOptions),
        c.colored = false → print_entry e s c = Line.plain s) ∧
    (∀ (e : DirEntry) (s : String) (c : FdOptions),
        c.colored = true → e.isLink = true →
          print_entry e s c = Line.painted Colour.Purple s) ∧
    (∀ (e : DirEntry) (s : String) (c : FdOptions),
        c.colored = true → e.isLink = false → e.isDirK = true →
          print_entry e s c = Line.painted Colour.Cyan s) ∧
    (∀ (e : DirEntry) (s : String) (c : FdOptions),
        c.colored = true → e.isLink = false → e.isDirK = false →
          print_entry e s c = Line.painted Colour.White s) := by
  refine ⟨?_, ?_, ?_, ?_⟩
  · intro e s c h; simp [print_entry, h]
  · intro e s c h hl; simp [print_entry, h, hl]
  · intro e s c h hl hd; simp [print_entry, h, hl, hd]
  · intro e s c h hl hd; simp [print_entry, h, hl, hd]

/-- Witness for C8 at the four kinds: no colour, a symlink that is also a
directory (Purple wins), a plain directory, a regular file. -/
theorem print_entry_contract_witness :
    print_entry ⟨["f"], "f", false, true, false⟩ "f" ⟨true, true, false, false, false⟩ =
      Line.plain "f" ∧
    print_entry ⟨["l"], "l", true, false, true⟩ "l" ⟨true, true, false, false, true⟩ =
      Line.painted Colour.Purple "l" ∧
    print_entry ⟨["d"], "d", false, false, true⟩ "d" ⟨true, true, false, false, true⟩ =
      Line.painted Colour.Cyan "d" ∧
    print_entry ⟨["f"], "f", false, true, false⟩ "f" ⟨true, true, false, false, true⟩ =
      Line.painted Colour.White "f" :=
  ⟨print_entry_contract.1 _ _ _ rfl,
   print_entry_contract.2.1 _ _ _ rfl rfl,
   print_entry_contract.2.2.1 _ _ _ rfl rfl rfl,
   print_entry_contract.2.2.2 _ _ _ rfl rfl rfl⟩

/-- C10: the hidden-entry filter is applied to the root entry itself, so
when the root's own name starts with a dot and `search_hidden` is false the
scan prints nothing, for every pattern and every tree beneath the root. -/
theorem hidden_root_scans_empty (rootAbs : List String) (rootName : String)
    (cs : List FSNode) (pattern : String → Option Nat) (config : FdOptions)
    (h1 : config.search_hidden = false) (h2 : strStartsWith rootName "." = true) :
    scan rootAbs rootName cs pattern config = [] := by
  simp [scan, walker, walkRoot, is_hidden, rootEntry, h1, h2]

/-- Witness for C10: scanning from a root named `.config` prints nothing. -/
theorem hidden_root_scans_empty_witness :
    ((⟨false, true, false, false, true⟩ : FdOptions).search_hidden = false ∧
      strStartsWith ".config" "." = true) ∧
    scan ["h", ".config"] ".config" [.file "config.toml"] (litFind true "")
      ⟨false, true, false, false, true⟩ = [] :=
  ⟨⟨rfl, by decide⟩, hidden_root_scans_empty _ _ _ _ _ rfl (by decide)⟩

mutual

/-- The `Ok` entries of a walk are unchanged when the `Err` steps of the
subtree are removed beforehand (node form). -/
theorem walkNode_dropErrs (follow : Bool) (p : DirEntry → Bool) (rel : List String)
    (c : FSNode) :
    (walkNode follow p rel (dropErrsN c)).filterMap id =
      (walkNode follow p rel c).filterMap id := by
  cases c with
  | file n => rfl
  | dir n cs =>
      have he : entryFor rel (FSNode.dir n (dropErrsF cs)) = entryFor rel (FSNode.dir n cs) :=
        rfl
      by_cases h : p (entryFor rel (.dir n cs))
      · simp [dropErrsN, walkNode, he, h, walkForest_dropErrs follow p (rel ++ [n]) cs]
      · simp [dropErrsN, walkNode, he, h]
  | symlinkFile n => rfl
  | symlinkDir n cs =>
      have he : entryFor rel (FSNode.symlinkDir n (dropErrsF cs)) =
          entryFor rel (FSNode.symlinkDir n cs) := rfl
      by_cases h : p (entryFor rel (.symlinkDir n cs))
      · by_cases hf : follow
        · simp [dropErrsN, walkNode, he, h, hf, walkForest_dropErrs true p (rel ++ [n]) cs]
        · simp [dropErrsN, walkNode, he, h, hf]
      · simp [dropErrsN, walkNode, he, h]
  | symlinkBroken n => rfl
  | err n => rfl

/-- The `Ok` entries of a walk are unchanged when the `Err` steps of the
forest are removed beforehand (forest form). -/
theorem walkForest_dropErrs (follow : Bool) (p : DirEntry → Bool) (rel : List String)
    (l : List FSNode) :
    (walkForest follow p rel (dropErrsF l)).filterMap id =
      (walkForest follow p rel l).filterMap id := by
  match l with
  | [] => rfl
  | .err n :: rest =>
      simp [dropErrsF, walkForest, walkNode, walkForest_dropErrs follow p rel rest]
  | .file n :: rest =>
      simp only [dropErrsF, walkForest, List.filterMap_append]
      rw [walkNode_dropErrs follow p rel (.file n), walkForest_dropErrs follow p rel rest]
  | .dir n cs :: rest =>
      simp only [dropErrsF, walkForest, List.filterMap_append]
      rw [walkNode_dropErrs follow p rel (.dir n cs), walkForest_dropErrs follow p rel rest]
  | .symlinkFile n :: rest =>
      simp only [dropErrsF, walkForest, List.filterMap_append]
      rw [walkNode_dropErrs follow p rel (.symlinkFile n), walkForest_dropErrs follow p rel rest]
  | .symlinkDir n cs :: rest =>
      simp only [dropErrsF, walkForest, List.filterMap_append]
      rw [walkNode_dropErrs follow p rel (.symlinkDir n cs), walkForest_dropErrs follow p rel rest]
  | .symlinkBroken n :: rest =>
      simp only [dropErrsF, walkForest, List.filterMap_append]
      rw [walkNode_dropErrs follow p rel (.symlinkBroken n), walkForest_dropErrs follow p rel rest]

end

/-- C7: per-entry traversal failures are contained — the scan is a total
function (it never fails), and its output over any tree equals its output
over the same tree with every `Err` step removed: each failing step only
omits itself, and the remaining entries are processed exactly as they would
be on the error-free tree. -/
theorem per_entry_errors_contained (rootAbs : List String) (rootName : String)
    (cs : List FSNode) (pattern : String → Option Nat) (config : FdOptions) :
    scan rootAbs rootName cs pattern config =
      scan rootAbs rootName (dropErrsF cs) pattern config := by
  simp only [scan, walker, walkRoot]
  by_cases h : (config.search_hidden || !is_hidden (rootEntry rootName)) = true
  · simp only [h, if_pos]
    rw [List.filterMap_cons, List.filterMap_cons,
      walkForest_dropErrs config.follow_links _ [] cs]
  · simp [h]

/-- A predicate that rejects hidden entries yields no `Ok` entries at all
from a hidden-named node: nothing is yielded for the node and nothing below
it is visited. -/
theorem walkNode_hidden_no_entries (follow : Bool) (p : DirEntry → Bool)
    (hp : ∀ e, is_hidden e = true → p e = false) (rel : List String) (c : FSNode)
    (hh : strStartsWith c.name "." = true) :
    (walkNode follow p rel c).filterMap id = [] := by
  cases c with
  | err n => rfl
  | file n =>
      have hq := hp (entryFor rel (.file n)) (by simpa [is_hidden, entryFor, FSNode.name] using hh)
      simp [walkNode, hq]
  | dir n cs =>
      have hq := hp (entryFor rel (.dir n cs)) (by simpa [is_hidden, entryFor, FSNode.name] using hh)
      simp [walkNode, hq]
  | symlinkFile n =>
      have hq := hp (entryFor rel (.symlinkFile n))
        (by simpa [is_hidden, entryFor, FSNode.name] using hh)
      simp [walkNode, hq]
  | symlinkDir n cs =>
      have hq := hp (entryFor rel (.symlinkDir n cs))
        (by simpa [is_hidden, entryFor, FSNode.name] using hh)
      simp [walkNode, hq]
  | symlinkBroken n =>
      have hq := hp (entryFor rel (.symlinkBroken n))
        (by simpa [is_hidden, entryFor, FSNode.name] using hh)
      simp [walkNode, hq]

mutual

/-- Under a predicate that rejects hidden entries, pruning hidden subtrees
from the tree beforehand leaves the walk's `Ok` entries unchanged (node
form). -/
theorem walkNode_pruneHidden (follow : Bool) (p : DirEntry → Bool)
    (hp : ∀ e, is_hidden e = true → p e = false) (rel : List String) (c : FSNode) :
    (walkNode follow p rel (pruneHiddenN c)).filterMap id =
      (walkNode follow p rel c).filterMap id := by
  cases c with
  | file n => rfl
  | dir n cs =>
      have he : entryFor rel (FSNode.dir n (pruneHiddenF cs)) =
          entryFor rel (FSNode.dir n cs) := rfl
      by_cases h : p (entryFor rel (.dir n cs))
      · simp [pruneHiddenN, walkNode, he, h, walkForest_pruneHidden follow p hp (rel ++ [n]) cs]
      · simp [pruneHiddenN, walkNode, he, h]
  | symlinkFile n => rfl
  | symlinkDir n cs =>
      have he : entryFor rel (FSNode.symlinkDir n (pruneHiddenF cs)) =
          entryFor rel (FSNode.symlinkDir n cs) := rfl
      by_cases h : p (entryFor rel (.symlinkDir n cs))
      · by_cases hf : follow
        · simp [pruneHiddenN, walkNode, he, h, hf, walkForest_pruneHidden true p hp (rel ++ [n]) cs]
        · simp [pruneHiddenN, walkNode, he, h, hf]
      · simp [pruneHiddenN, walkNode, he, h]
  | symlinkBroken n => rfl
  | err n => rfl

/-- Under a predicate that rejects hidden entries, pruning hidden subtrees
from the forest beforehand leaves the walk's `Ok` entries unchanged (forest
form). -/
theorem walkForest_pruneHidden (follow : Bool) (p : DirEntry → Bool)
    (hp : ∀ e, is_hidden e = true → p e = false) (rel : List String) (l : List FSNode) :
    (walkForest follow p rel (pruneHiddenF l)).filterMap id =
      (walkForest follow p rel l).filterMap id := by
  match l with
  | [] => rfl
  | c :: rest =>
      by_cases hh : strStartsWith c.name "."
      · simp only [pruneHiddenF, hh, if_pos, walkForest, List.filterMap_append,
          walkNode_hidden_no_entries follow p hp rel c hh,
          walkForest_pruneHidden follow p hp rel rest, List.nil_append]
      · simp only [pruneHiddenF, hh, if_neg, Bool.false_eq_true, not_false_eq_true,
          walkForest, List.filterMap_append,
          walkNode_pruneHidden follow p hp rel c,
          walkForest_pruneHidden follow p hp rel rest]

end

/-- C3: hidden-entry exclusion is a pruning filter and is transitive — with
`search_hidden` false the walker yields nothing at all for a dot-named
directory (it does not descend), and the scan's output over any tree equals
its output over the tree with every hidden-named subtree removed, so no
descendant of a hidden directory is ever printed, whatever the descendants'
names or the pattern. -/
theorem hidden_subtrees_pruned (config : FdOptions) (h1 : config.search_hidden = false)
    (rootAbs : List String) (rootName : String) (cs : List FSNode)
    (pattern : String → Option Nat) :
    (∀ (rel : List String) (n : String) (sub : List FSNode),
        strStartsWith n "." = true →
        walkNode config.follow_links
          (fun e => config.search_hidden || !is_hidden e) rel (.dir n sub) = []) ∧
    scan rootAbs rootName cs pattern config =
      scan rootAbs rootName (pruneHiddenF cs) pattern config := by
  have hp : ∀ e, is_hidden e = true →
      (config.search_hidden || !is_hidden e) = false := by
    intro e he
    simp [h1, he]
  constructor
  · intro rel n sub hh
    have hq := hp (entryFor rel (.dir n sub)) (by simpa [is_hidden, entryFor] using hh)
    simp only [walkNode, hq, Bool.false_eq_true, if_neg, not_false_eq_true]
  · simp only [scan, walker, walkRoot]
    by_cases h : (config.search_hidden || !is_hidden (rootEntry rootName)) = true
    · simp only [h, if_pos, List.filterMap_cons]
      rw [walkForest_pruneHidden config.follow_links _ hp [] cs]
    · simp [h]

/-- Witness for C3 at the spec's scenario tree. -/
theorem hidden_subtrees_pruned_witness :
    (⟨false, true, false, false, false⟩ : FdOptions).search_hidden = false ∧
    ((∀ (rel : List String) (n : String) (sub : List FSNode),
        strStartsWith n "." = true →
        walkNode (⟨false, true, false, false, false⟩ : FdOptions).follow_links
          (fun e => (⟨false, true, false, false, false⟩ : FdOptions).search_hidden || !is_hidden e)
          rel (.dir n sub) = []) ∧
     scan ["r"] "r"
        [.dir "a" [.dir "b" [.file "README.md"], .dir ".hidden" [.file "secret.md"]],
         .file "LICENSE"]
        (litFind true "readme") ⟨false, true, false, false, false⟩ =
      scan ["r"] "r"
        (pruneHiddenF
          [.dir "a" [.dir "b" [.file "README.md"], .dir ".hidden" [.file "secret.md"]],
           .file "LICENSE"])
        (litFind true "readme") ⟨false, true, false, false, false⟩) :=
  ⟨rfl, hidden_subtrees_pruned _ rfl _ _ _ _⟩

/-- `strip_prefix` succeeds on every walker entry: stripping the root's
absolute path from an entry's absolute path returns its relative path. -/
theorem stripPfx_append (base rel : List String) : stripPfx base (base ++ rel) = some rel := by
  induction base with
  | nil => rfl
  | cons a as ih => simp [stripPfx, ih]

/-- C9: the string printed for a matching entry is always the entry's full
path relative to the search root, in both modes — every output line is
`print_entry e (renderPath e.relPath) config` for some walker entry `e`; and
concretely, in filename-only mode the pattern `readme` is tested against the
base name but the line printed for `a/readme` is the full relative path
`a/readme`, not `readme`. -/
theorem printed_string_is_relative_path (config : FdOptions) (rootAbs : List String)
    (rootName : String) (cs : List FSNode) (pattern : String → Option Nat) (l : Line)
    (hl : l ∈ scan rootAbs rootName cs pattern config) :
    (∃ e ∈ walker config rootAbs rootName cs,
        l = print_entry e (renderPath e.relPath) config) ∧
    fdRun ⟨false, true, false, false, true⟩ ["readme"] ["r"] "r"
        [.dir "a" [.file "readme"]] = [Line.plain "a/readme"] := by
  refine ⟨?_, by decide⟩
  rcases List.mem_filterMap.mp hl with ⟨e, he, hpe⟩
  refine ⟨e, he, ?_⟩
  simp only [processEntry, stripPfx_append] at hpe
  rcases Option.map_eq_some'.mp hpe with ⟨k, _, hk⟩
  exact hk.symm

/-- Witness for C9: a filename-mode run that prints a nested file. -/
theorem printed_string_witness :
    Line.plain "a/readme" ∈ scan ["r"] "r" [.dir "a" [.file "readme"]]
      (litFind true "readme") ⟨false, false, false, false, false⟩ ∧
    ((∃ e ∈ walker ⟨false, false, false, false, false⟩ ["r"] "r" [.dir "a" [.file "readme"]],
        Line.plain "a/readme" = print_entry e (renderPath e.relPath)
          ⟨false, false, false, false, false⟩) ∧
     fdRun ⟨false, true, false, false, true⟩ ["readme"] ["r"] "r"
        [.dir "a" [.file "readme"]] = [Line.plain "a/readme"]) :=
  ⟨by decide, printed_string_is_relative_path ⟨false, false, false, false, false⟩ ["r"] "r"
    [.dir "a" [.file "readme"]] (litFind true "readme") (Line.plain "a/readme") (by decide)⟩

/-- `findSub` succeeds exactly on the infixes of the haystack. -/
theorem findSub_isSome_iff (needle hay : List Char) :
    (findSub needle hay).isSome = true ↔ needle <:+: hay := by
  induction hay with
  | nil =>
      by_cases h : needle = [] <;> simp [findSub, h]
  | cons c t ih =>
      by_cases h : needle.isPrefixOf (c :: t)
      · simp only [findSub, h, if_pos, Option.isSome_some, true_iff]
        exact List.infix_cons_iff.mpr (Or.inl (List.isPrefixOf_iff_prefix.mp h))
      · have h2 : ¬ needle <+: (c :: t) := fun hc => h (List.isPrefixOf_iff_prefix.mpr hc)
        simp [findSub, h, ih, List.infix_cons_iff, h2]

/-- The base name of a non-empty relative path occurs inside the rendered
path string. -/
theorem getLast_infix_renderPath (rel : List String) (b : String)
    (hb : rel.getLast? = some b) : b.data <:+: (renderPath rel).data := by
  induction rel with
  | nil => cases hb
  | cons a t ih =>
      cases t with
      | nil =>
          have hba : b = a := by simpa using hb.symm
          subst hba
          exact List.infix_refl _
      | cons a2 t2 =>
          have hb2 : (a2 :: t2).getLast? = some b := by
            simpa [List.getLast?_cons_cons] using hb
          rcases ih hb2 with ⟨s, t3, hst⟩
          refine ⟨(a ++ "/").data ++ s, t3, ?_⟩
          rw [show renderPath (a :: a2 :: t2) = a ++ "/" ++ renderPath (a2 :: t2) from rfl]
          simp only [String.data_append, ← hst, List.append_assoc]

/-- A literal-pattern match inside a string persists when the string is
extended to any string containing it. -/
theorem litFind_infix_mono (ci : Bool) (pat b t : String)
    (hbt : b.data <:+: t.data) (h : (litFind ci pat b).isSome = true) :
    (litFind ci pat t).isSome = true := by
  cases ci with
  | false =>
      have e1 : litFind false pat b = findSub pat.data b.data := by simp [litFind]
      have e2 : litFind false pat t = findSub pat.data t.data := by simp [litFind]
      rw [e1] at h
      rw [e2]
      exact (findSub_isSome_iff _ _).mpr (((findSub_isSome_iff _ _).mp h).trans hbt)
  | true =>
      have e1 : litFind true pat b = findSub (lowerStr pat).data (lowerStr b).data := by
        simp [litFind]
      have e2 : litFind true pat t = findSub (lowerStr pat).data (lowerStr t).data := by
        simp [litFind]
      rw [e1] at h
      rw [e2]
      have hmap : (lowerStr b).data <:+: (lowerStr t).data := hbt.map Char.toLower
      exact (findSub_isSome_iff _ _).mpr (((findSub_isSome_iff _ _).mp h).trans hmap)

/-- No entry classifies as both a regular file and a directory. -/
theorem entryFor_kinds (rel : List String) (c : FSNode) :
    ((entryFor rel c).isFileK && (entryFor rel c).isDirK) = false := by
  cases c <;> rfl

mutual

/-- Every `Ok` entry yielded below a node classifies as at most one of
regular file and directory (node form). -/
theorem walkNode_kinds (follow : Bool) (p : DirEntry → Bool) (rel : List String)
    (c : FSNode) :
    ∀ e, some e ∈ walkNode follow p rel c → (e.isFileK && e.isDirK) = false := by
  cases c with
  | file n =>
      intro e he
      by_cases h : p (entryFor rel (.file n)) <;> simp [walkNode, h] at he
      exact he ▸ entryFor_kinds rel (.file n)
  | dir n cs =>
      intro e he
      by_cases h : p (entryFor rel (.dir n cs))
      · rw [walkNode, if_pos h] at he
        rcases List.mem_cons.mp he with h2 | h2
        · have : e = entryFor rel (.dir n cs) := by injection h2
          exact this ▸ entryFor_kinds rel (.dir n cs)
        · exact walkForest_kinds follow p (rel ++ [n]) cs e h2
      · simp [walkNode, h] at he
  | symlinkFile n =>
      intro e he
      by_cases h : p (entryFor rel (.symlinkFile n)) <;> simp [walkNode, h] at he
      exact he ▸ entryFor_kinds rel (.symlinkFile n)
  | symlinkDir n cs =>
      intro e he
      by_cases h : p (entryFor rel (.symlinkDir n cs))
      · rw [walkNode, if_pos h] at he
        rcases List.mem_cons.mp he with h2 | h2
        · have : e = entryFor rel (.symlinkDir n cs) := by injection h2
          exact this ▸ entryFor_kinds rel (.symlinkDir n cs)
        · by_cases hf : follow
          · rw [if_pos hf] at h2
            exact walkForest_kinds follow p (rel ++ [n]) cs e h2
          · rw [if_neg hf] at h2
            cases h2
      · simp [walkNode, h] at he
  | symlinkBroken n =>
      intro e he
      by_cases h : p (entryFor rel (.symlinkBroken n)) <;> simp [walkNode, h] at he
      exact he ▸ entryFor_kinds rel (.symlinkBroken n)
  | err n =>
      intro e he
      simp [walkNode] at he

/-- Every `Ok` entry yielded by a forest walk classifies as at most one of
regular file and directory (forest form). -/
theorem walkForest_kinds (follow : Bool) (p : DirEntry → Bool) (rel : List String)
    (l : List FSNode) :
    ∀ e, some e ∈ walkForest follow p rel l → (e.isFileK && e.isDirK) = false := by
  match l with
  | [] => intro e he; simp [walkForest] at he
  | c :: rest =>
      intro e he
      rcases List.mem_append.mp he with h2 | h2
      · exact walkNode_kinds follow p rel c e h2
      · exact walkForest_kinds follow p rel rest e h2

end

/-- A walker entry is the root entry or an `Ok` entry of the forest walk. -/
theorem walker_mem_cases (config : FdOptions) (rootAbs : List String) (rootName : String)
    (cs : List FSNode) (e : DirEntry) (he : e ∈ walker config rootAbs rootName cs) :
    e = rootEntry rootName ∨
      some e ∈ walkForest config.follow_links
        (fun x => config.search_hidden || !is_hidden x) [] cs := by
  have h1 := (List.mem_filter.mp he).1
  rcases List.mem_filterMap.mp h1 with ⟨o, ho, hoe⟩
  simp only [id] at hoe
  subst hoe
  unfold walkRoot at ho
  by_cases h : (config.search_hidden || !is_hidden (rootEntry rootName)) = true
  · rw [if_pos h] at ho
    rcases List.mem_cons.mp ho with h2 | h2
    · exact Or.inl (by injection h2)
    · exact Or.inr h2
  · rw [if_neg h] at ho
    cases ho

/-- C4: with a literal pattern, every line printed in filename-only mode is
also printed by the otherwise-identical full-path-mode run, and an entry can
be printed in filename-only mode only when its relative path denotes a
regular file — never a directory; matching there uses the base name only. -/
theorem filename_mode_subset_fullpath (config : FdOptions) (rootAbs : List String)
    (rootName : String) (cs : List FSNode) (ci : Bool) (pat : String) :
    (∀ l ∈ scan rootAbs rootName cs (litFind ci pat)
        { config with search_full_path := false },
      l ∈ scan rootAbs rootName cs (litFind ci pat)
        { config with search_full_path := true }) ∧
    (∀ e ∈ walker { config with search_full_path := false } rootAbs rootName cs, ∀ l,
      processEntry rootAbs (litFind ci pat) { config with search_full_path := false } e =
        some l →
      e.isFileK = true ∧ e.isDirK = false) := by
  have hkind : ∀ e ∈ walker { config with search_full_path := false } rootAbs rootName cs,
      (e.isFileK && e.isDirK) = false := by
    intro e he
    rcases walker_mem_cases _ _ _ _ _ he with h | h
    · subst h; rfl
    · exact walkForest_kinds _ _ _ _ e h
  have hproc : ∀ e l,
      processEntry rootAbs (litFind ci pat) { config with search_full_path := false } e =
        some l →
      e.isFileK = true ∧
        processEntry rootAbs (litFind ci pat) { config with search_full_path := true } e =
          some l := by
    intro e l hpl
    simp only [processEntry, stripPfx_append] at hpl ⊢
    by_cases hf : e.isFileK
    · rcases Option.map_eq_some'.mp hpl with ⟨k, hk, hlk⟩
      simp only [show ({ config with search_full_path := false} : FdOptions).search_full_path
          = false from rfl, Bool.false_eq_true, if_neg, not_false_eq_true, hf,
        Bool.not_true] at hk
      rcases Option.bind_eq_some.mp hk with ⟨b, hb, hfind⟩
      have hmono := litFind_infix_mono ci pat b (renderPath e.relPath)
        (getLast_infix_renderPath e.relPath b hb) (by simp [hfind])
      rcases Option.isSome_iff_exists.mp hmono with ⟨m, hm⟩
      refine ⟨hf, ?_⟩
      simp only [show ({ config with search_full_path := true} : FdOptions).search_full_path
          = true from rfl, if_pos, hm, Option.map_some']
      have hpr : print_entry e (renderPath e.relPath) { config with search_full_path := true } =
          print_entry e (renderPath e.relPath) { config with search_full_path := false } :=
        rfl
      rw [hpr, ← hlk]
    · exfalso
      simp only [show ({ config with search_full_path := false} : FdOptions).search_full_path
          = false from rfl, Bool.false_eq_true, if_neg, not_false_eq_true, hf,
        Bool.not_false, if_pos, Option.map_none'] at hpl
      exact Option.noConfusion hpl
  constructor
  · intro l hl
    rcases List.mem_filterMap.mp hl with ⟨e, he, hpe⟩
    have hw : walker { config with search_full_path := false } rootAbs rootName cs =
        walker { config with search_full_path := true } rootAbs rootName cs := rfl
    exact List.mem_filterMap.mpr ⟨e, hw ▸ he, (hproc e l hpe).2⟩
  · intro e he l hpl
    refine ⟨(hproc e l hpl).1, ?_⟩
    have := hkind e he
    have hf := (hproc e l hpl).1
    rw [hf] at this
    simpa using this

/-- Witness for C4: the filename-mode line `a/readme` also appears in the
full-path-mode output. -/
theorem filename_mode_subset_witness :
    Line.plain "a/readme" ∈ scan ["r"] "r" [.dir "a" [.file "readme"]]
      (litFind true "readme")
      { (⟨false, true, false, false, false⟩ : FdOptions) with search_full_path := false } ∧
    Line.plain "a/readme" ∈ scan ["r"] "r" [.dir "a" [.file "readme"]]
      (litFind true "readme")
      { (⟨false, true, false, false, false⟩ : FdOptions) with search_full_path := true } :=
  ⟨by decide, (filename_mode_subset_fullpath ⟨false, true, false, false, false⟩ ["r"] "r"
      [.dir "a" [.file "readme"]] true "readme").1 (Line.plain "a/readme") (by decide)⟩

/-- Membership in `filterMap id` is membership of the `some`. -/
theorem mem_filterMap_id {α : Type} (l : List (Option α)) (x : α) :
    x ∈ l.filterMap id ↔ some x ∈ l := by
  simp [List.mem_filterMap]

/-- `filterMap` is a `map` when the function is total on the list. -/
theorem filterMap_all_some {α β : Type} (f : α → Option β) (g : α → β) (l : List α)
    (h : ∀ x ∈ l, f x = some (g x)) : l.filterMap f = l.map g := by
  induction l with
  | nil => rfl
  | cons a t ih =>
      simp [List.filterMap_cons, h a (by simp), ih fun x hx => h x (by simp [hx])]

/-- A realisable file name: non-empty and free of the path separator. -/
def okName (n : String) : Bool := decide (n.data ≠ []) && decide ('/' ∉ n.data)

/-- Check that a forest's top-level names are pairwise distinct. -/
def nodupNames (l : List FSNode) : Bool := decide ((l.map FSNode.name).Nodup)

mutual

/-- Well-formedness of one filesystem node: its name is realisable and the
names of the children of each directory (or followed link target) are
pairwise distinct. -/
def wfNode : FSNode → Bool
  | .file n => okName n
  | .dir n cs => okName n && nodupNames cs && wfForest cs
  | .symlinkFile n => okName n
  | .symlinkDir n cs => okName n && nodupNames cs && wfForest cs
  | .symlinkBroken n => okName n
  | .err n => okName n

/-- Well-formedness of a forest of siblings. -/
def wfForest : List FSNode → Bool
  | [] => true
  | c :: rest => wfNode c && wfForest rest

end

/-- Splitting two slash-terminated prefixes of the same character list:
slash-free heads before the first separator agree. -/
theorem slash_split (x : List Char) : ∀ (y u v : List Char), '/' ∉ x → '/' ∉ y →
    x ++ '/' :: u = y ++ '/' :: v → x = y ∧ u = v := by
  induction x with
  | nil =>
      intro y u v _ hy h
      cases y with
      | nil => simpa using h
      | cons b ys =>
          rw [List.nil_append, List.cons_append] at h
          injection h with h1 _
          exact absurd (h1 ▸ List.mem_cons_self b ys) hy
  | cons a xs ih =>
      intro y u v hx hy h
      cases y with
      | nil =>
          rw [List.cons_append, List.nil_append] at h
          injection h with h1 _
          exact absurd (h1 ▸ List.mem_cons_self a xs) hx
      | cons b ys =>
          rw [List.cons_append, List.cons_append] at h
          injection h with h1 h2
          have hx2 : '/' ∉ xs := fun m => hx (List.mem_cons_of_mem _ m)
          have hy2 : '/' ∉ ys := fun m => hy (List.mem_cons_of_mem _ m)
          rcases ih ys u v hx2 hy2 h2 with ⟨hxy, huv⟩
          exact ⟨by rw [h1, hxy], huv⟩

/-- The rendered path of a non-empty list of realisable names is non-empty. -/
theorem renderPath_ne_empty (v : List String) (b : String) (hv : okName b = true)
    (h : renderPath (b :: v) = "") : False := by
  have hb : b.data ≠ [] := of_decide_eq_true (Bool.and_eq_true .. ▸ hv).1
  cases v with
  | nil => exact hb (congrArg String.data h)
  | cons c t =>
      have hd := congrArg String.data h
      rw [show renderPath (b :: c :: t) = b ++ "/" ++ renderPath (c :: t) from rfl,
        String.data_append, String.data_append] at hd
      cases hb (List.append_eq_nil.mp (List.append_eq_nil.mp hd).1).1

/-- `renderPath` is injective on lists of realisable names. -/
theorem renderPath_inj (u : List String) : ∀ v : List String,
    (∀ x ∈ u, okName x = true) → (∀ x ∈ v, okName x = true) →
    renderPath u = renderPath v → u = v := by
  induction u with
  | nil =>
      intro v _ hv h
      cases v with
      | nil => rfl
      | cons b t => exact (renderPath_ne_empty t b (hv b (by simp)) h.symm).elim
  | cons a u2 ih =>
      intro v hu hv h
      cases v with
      | nil => exact (renderPath_ne_empty u2 a (hu a (by simp)) h).elim
      | cons b v2 =>
          have hoka := hu a (by simp)
          have hokb := hv b (by simp)
          have hsa : '/' ∉ a.data := of_decide_eq_true (Bool.and_eq_true .. ▸ hoka).2
          have hsb : '/' ∉ b.data := of_decide_eq_true (Bool.and_eq_true .. ▸ hokb).2
          cases u2 with
          | nil =>
              cases v2 with
              | nil => rw [show renderPath [a] = a from rfl, show renderPath [b] = b from rfl] at h; rw [h]
              | cons c t =>
                  have hd := congrArg String.data h
                  rw [show renderPath [a] = a from rfl,
                    show renderPath (b :: c :: t) = b ++ "/" ++ renderPath (c :: t) from rfl,
                    String.data_append, String.data_append] at hd
                  exact absurd (by
                    rw [hd]
                    simp [show ("/" : String).data = ['/'] from rfl]) hsa
          | cons a2 u3 =>
              cases v2 with
              | nil =>
                  have hd := congrArg String.data h
                  rw [show renderPath [b] = b from rfl,
                    show renderPath (a :: a2 :: u3) = a ++ "/" ++ renderPath (a2 :: u3) from rfl,
                    String.data_append, String.data_append] at hd
                  exact absurd (by
                    rw [← hd]
                    simp [show ("/" : String).data = ['/'] from rfl]) hsb
              | cons b2 v3 =>
                  have hd := congrArg String.data h
                  rw [show renderPath (a :: a2 :: u3) = a ++ "/" ++ renderPath (a2 :: u3) from rfl,
                    show renderPath (b :: b2 :: v3) = b ++ "/" ++ renderPath (b2 :: v3) from rfl,
                    String.data_append, String.data_append, String.data_append,
                    String.data_append,
                    show ("/" : String).data = ['/'] from rfl, List.append_assoc,
                    List.append_assoc, List.cons_append, List.cons_append, List.nil_append,
                    List.nil_append] at hd
                  rcases slash_split a.data b.data (renderPath (a2 :: u3)).data
                    (renderPath (b2 :: v3)).data hsa hsb hd with ⟨h1, h2⟩
                  have hab : a = b := String.ext h1
                  have htl : a2 :: u3 = b2 :: v3 :=
                    ih (b2 :: v3) (fun x hx => hu x (by simp [hx]))
                      (fun x hx => hv x (by simp [hx])) (String.ext h2)
                  rw [hab, htl]

mutual

/-- In a well-formed subtree, every `Ok` entry's relative path extends the
ambient path with the node's own name followed by realisable names, and the
relative paths of the walk are pairwise distinct (node form). -/
theorem walkNode_paths (follow : Bool) (p : DirEntry → Bool) (rel : List String)
    (c : FSNode) (hwf : wfNode c = true) :
    (∀ e, some e ∈ walkNode follow p rel c →
      ∃ s, e.relPath = rel ++ c.name :: s ∧ ∀ x ∈ c.name :: s, okName x = true) ∧
    (((walkNode follow p rel c).filterMap id).map DirEntry.relPath).Nodup := by
  cases c with
  | file n =>
      simp only [wfNode] at hwf
      constructor
      · intro e he
        by_cases h : p (entryFor rel (.file n)) <;> simp [walkNode, h] at he
        refine ⟨[], by simp [he, entryFor, FSNode.name], ?_⟩
        intro x hx
        rw [show (FSNode.name (.file n)) = n from rfl] at hx
        simp at hx
        exact hx ▸ hwf
      · by_cases h : p (entryFor rel (.file n)) <;> simp [walkNode, h]
  | dir n cs =>
      simp only [wfNode, Bool.and_eq_true] at hwf
      obtain ⟨⟨hok, hndcs⟩, hwfcs⟩ := hwf
      have IH := walkForest_paths follow p (rel ++ [n]) cs hwfcs hndcs
      by_cases h : p (entryFor rel (.dir n cs))
      · constructor
        · intro e he
          rw [walkNode, if_pos h] at he
          rcases List.mem_cons.mp he with h2 | h2
          · have he2 : e = entryFor rel (.dir n cs) := by injection h2
            refine ⟨[], by simp [he2, entryFor, FSNode.name], ?_⟩
            intro x hx
            rw [show (FSNode.name (.dir n cs)) = n from rfl] at hx
            simp at hx
            exact hx ▸ hok
          · rcases IH.1 e h2 with ⟨c2, _, s2, hs2, hoks⟩
            refine ⟨c2.name :: s2, by rw [hs2]; simp [FSNode.name], ?_⟩
            intro x hx
            rcases List.mem_cons.mp hx with h3 | h3
            · exact h3 ▸ hok
            · exact hoks x h3
        · rw [walkNode, if_pos h,
            show ((some (entryFor rel (.dir n cs)) :: walkForest follow p (rel ++ [n]) cs)).filterMap id =
              entryFor rel (.dir n cs) :: (walkForest follow p (rel ++ [n]) cs).filterMap id from rfl,
            List.map_cons]
          refine List.nodup_cons.mpr ⟨?_, IH.2⟩
          intro hmem
          rcases List.mem_map.mp hmem with ⟨e2, he2, hpath⟩
          rcases IH.1 e2 ((mem_filterMap_id _ _).mp he2) with ⟨c2, _, s2, hs2, _⟩
          rw [hs2] at hpath
          have hlen := congrArg List.length hpath
          simp [entryFor, List.length_append] at hlen
      · constructor
        · intro e he
          rw [walkNode, if_neg h] at he
          cases he
        · rw [walkNode, if_neg h]
          simp
  | symlinkFile n =>
      simp only [wfNode] at hwf
      constructor
      · intro e he
        by_cases h : p (entryFor rel (.symlinkFile n)) <;> simp [walkNode, h] at he
        refine ⟨[], by simp [he, entryFor, FSNode.name], ?_⟩
        intro x hx
        rw [show (FSNode.name (.symlinkFile n)) = n from rfl] at hx
        simp at hx
        exact hx ▸ hwf
      · by_cases h : p (entryFor rel (.symlinkFile n)) <;> simp [walkNode, h]
  | symlinkDir n cs =>
      simp only [wfNode, Bool.and_eq_true] at hwf
      obtain ⟨⟨hok, hndcs⟩, hwfcs⟩ := hwf
      by_cases hf : follow
      · have IH := walkForest_paths follow p (rel ++ [n]) cs hwfcs hndcs
        by_cases h : p (entryFor rel (.symlinkDir n cs))
        · constructor
          · intro e he
            rw [walkNode, if_pos h, if_pos hf] at he
            rcases List.mem_cons.mp he with h2 | h2
            · have he2 : e = entryFor rel (.symlinkDir n cs) := by injection h2
              refine ⟨[], by simp [he2, entryFor, FSNode.name], ?_⟩
              intro x hx
              rw [show (FSNode.name (.symlinkDir n cs)) = n from rfl] at hx
              simp at hx
              exact hx ▸ hok
            · rcases IH.1 e h2 with ⟨c2, _, s2, hs2, hoks⟩
              refine ⟨c2.name :: s2, by rw [hs2]; simp [FSNode.name], ?_⟩
              intro x hx
              rcases List.mem_cons.mp hx with h3 | h3
              · exact h3 ▸ hok
              · exact hoks x h3
          · rw [walkNode, if_pos h, if_pos hf,
              show ((some (entryFor rel (.symlinkDir n cs)) :: walkForest follow p (rel ++ [n]) cs)).filterMap id =
                entryFor rel (.symlinkDir n cs) :: (walkForest follow p (rel ++ [n]) cs).filterMap id from rfl,
              List.map_cons]
            refine List.nodup_cons.mpr ⟨?_, IH.2⟩
            intro hmem
            rcases List.mem_map.mp hmem with ⟨e2, he2, hpath⟩
            rcases IH.1 e2 ((mem_filterMap_id _ _).mp he2) with ⟨c2, _, s2, hs2, _⟩
            rw [hs2] at hpath
            have hlen := congrArg List.length hpath
            simp [entryFor, List.length_append] at hlen
        · constructor
          · intro e he
            rw [walkNode, if_neg h] at he
            cases he
          · rw [walkNode, if_neg h]
            simp
      · constructor
        · intro e he
          by_cases h : p (entryFor rel (.symlinkDir n cs)) <;>
            simp [walkNode, h, hf] at he
          refine ⟨[], by simp [he, entryFor, FSNode.name], ?_⟩
          intro x hx
          rw [show (FSNode.name (.symlinkDir n cs)) = n from rfl] at hx
          simp at hx
          exact hx ▸ hok
        · by_cases h : p (entryFor rel (.symlinkDir n cs)) <;> simp [walkNode, h, hf]
  | symlinkBroken n =>
      simp only [wfNode] at hwf
      constructor
      · intro e he
        by_cases h : p (entryFor rel (.symlinkBroken n)) <;> simp [walkNode, h] at he
        refine ⟨[], by simp [he, entryFor, FSNode.name], ?_⟩
        intro x hx
        rw [show (FSNode.name (.symlinkBroken n)) = n from rfl] at hx
        simp at hx
        exact hx ▸ hwf
      · by_cases h : p (entryFor rel (.symlinkBroken n)) <;> simp [walkNode, h]
  | err n =>
      constructor
      · intro e he
        simp [walkNode] at he
      · simp [walkNode]

/-- In a well-formed forest with distinct top-level names, every `Ok`
entry's relative path extends the ambient path with one sibling's name, and
all relative paths are pairwise distinct (forest form). -/
theorem walkForest_paths (follow : Bool) (p : DirEntry → Bool) (rel : List String)
    (l : List FSNode) (hwf : wfForest l = true) (hnd : nodupNames l = true) :
    (∀ e, some e ∈ walkForest follow p rel l →
      ∃ c ∈ l, ∃ s, e.relPath = rel ++ c.name :: s ∧ ∀ x ∈ c.name :: s, okName x = true) ∧
    (((walkForest follow p rel l).filterMap id).map DirEntry.relPath).Nodup := by
  match l with
  | [] =>
      constructor
      · intro e he
        simp [walkForest] at he
      · simp [walkForest]
  | c :: rest =>
      simp only [wfForest, Bool.and_eq_true] at hwf
      obtain ⟨hwfc, hwfrest⟩ := hwf
      have hndl := of_decide_eq_true hnd
      rw [List.map_cons, List.nodup_cons] at hndl
      have hcname : c.name ∉ rest.map FSNode.name := hndl.1
      have hndrest : nodupNames rest = true := decide_eq_true hndl.2
      have IHc := walkNode_paths follow p rel c hwfc
      have IHrest := walkForest_paths follow p rel rest hwfrest hndrest
      constructor
      · intro e he
        rcases List.mem_append.mp he with h2 | h2
        · rcases IHc.1 e h2 with ⟨s, hs, hok⟩
          exact ⟨c, List.mem_cons_self c rest, s, hs, hok⟩
        · rcases IHrest.1 e h2 with ⟨c2, hc2, s, hs, hok⟩
          exact ⟨c2, List.mem_cons_of_mem c hc2, s, hs, hok⟩
      · rw [walkForest, List.filterMap_append, List.map_append]
        refine List.Nodup.append IHc.2 IHrest.2 ?_
        intro q hq1 hq2
        rcases List.mem_map.mp hq1 with ⟨e1, he1, hq1e⟩
        rcases List.mem_map.mp hq2 with ⟨e2, he2, hq2e⟩
        rcases IHc.1 e1 ((mem_filterMap_id _ _).mp he1) with ⟨s1, hs1, _⟩
        rcases IHrest.1 e2 ((mem_filterMap_id _ _).mp he2) with ⟨c2, hc2, s2, hs2, _⟩
        rw [← hq1e, hs1] at hq2e
        rw [hs2] at hq2e
        have := List.append_cancel_left hq2e
        injection this with hname _
        exact hcname (hname ▸ List.mem_map_of_mem FSNode.name hc2)

end

/-- The empty needle is found at position 0 of every haystack. -/
theorem findSub_nil (hay : List Char) : findSub [] hay = some 0 := by
  cases hay <;> simp [findSub, List.isPrefixOf]

/-- The empty pattern matches every candidate string at position 0,
case-sensitive or not. -/
theorem litFind_empty (ci : Bool) (s : String) : litFind ci "" s = some 0 := by
  cases ci <;> simp [litFind, lowerStr, findSub_nil]

/-- The path string carried by an output line. -/
def Line.str : Line → String
  | .plain s => s
  | .painted _ s => s

/-- `print_entry` always carries the path string it was given. -/
theorem str_print_entry (e : DirEntry) (s : String) (c : FdOptions) :
    (print_entry e s c).str = s := by
  by_cases h : c.colored = true <;> simp [print_entry, h, Line.str]

/-- In a well-formed tree the walker's relative paths are pairwise distinct
and consist of realisable names only. -/
theorem walker_paths (config : FdOptions) (rootAbs : List String) (rootName : String)
    (cs : List FSNode) (hwf : wfForest cs = true) (hnd : nodupNames cs = true) :
    ((walker config rootAbs rootName cs).map DirEntry.relPath).Nodup ∧
    ∀ e ∈ walker config rootAbs rootName cs, ∀ x ∈ e.relPath, okName x = true := by
  have IH := walkForest_paths config.follow_links
    (fun x => config.search_hidden || !is_hidden x) [] cs hwf hnd
  constructor
  · have hsub : List.Sublist (walker config rootAbs rootName cs)
        ((walkRoot config.follow_links (fun x => config.search_hidden || !is_hidden x)
          rootName cs).filterMap id) := List.filter_sublist _
    refine List.Nodup.sublist (hsub.map DirEntry.relPath) ?_
    unfold walkRoot
    by_cases h : (config.search_hidden || !is_hidden (rootEntry rootName)) = true
    · rw [if_pos h,
        show (some (rootEntry rootName) :: walkForest config.follow_links
            (fun x => config.search_hidden || !is_hidden x) [] cs).filterMap id =
          rootEntry rootName :: (walkForest config.follow_links
            (fun x => config.search_hidden || !is_hidden x) [] cs).filterMap id from rfl,
        List.map_cons]
      refine List.nodup_cons.mpr ⟨?_, IH.2⟩
      intro hmem
      rcases List.mem_map.mp hmem with ⟨e2, he2, hpath⟩
      rcases IH.1 e2 ((mem_filterMap_id _ _).mp he2) with ⟨c2, _, s2, hs2, _⟩
      rw [hs2] at hpath
      simp [rootEntry] at hpath
    · rw [if_neg h]
      simp
  · intro e he x hx
    have h2 := (List.mem_filter.mp he).2
    rcases walker_mem_cases config rootAbs rootName cs e he with hr | hfor
    · exfalso
      have := of_decide_eq_true h2
      rw [hr] at this
      exact this (by simp [rootEntry])
    · rcases IH.1 e hfor with ⟨c2, _, s2, hs2, hok⟩
      rw [hs2] at hx
      exact hok x (by simpa using hx)

/-- C5: when no pattern argument is supplied the empty string is compiled;
the empty pattern matches every candidate string at position 0; the default
configuration searches the full path; and for a well-formed tree the scan
then prints the full relative path of every walker entry (every non-hidden
entry below the root), each exactly once. -/
theorem empty_pattern_prints_each_entry_once (rootAbs : List String) (rootName : String)
    (cs : List FSNode) (ci : Bool) (s : String)
    (hwf : wfForest cs = true) (hnd : nodupNames cs = true) :
    patternOf [] = "" ∧
    litFind ci "" s = some 0 ∧
    mkConfig ⟨false, false, false, false, false⟩ (patternOf []) =
      ⟨false, true, false, false, true⟩ ∧
    scan rootAbs rootName cs (litFind true "") ⟨false, true, false, false, true⟩ =
      (walker ⟨false, true, false, false, true⟩ rootAbs rootName cs).map
        (fun e => print_entry e (renderPath e.relPath) ⟨false, true, false, false, true⟩) ∧
    (scan rootAbs rootName cs (litFind true "") ⟨false, true, false, false, true⟩).Nodup ∧
    ∀ e ∈ walker ⟨false, true, false, false, true⟩ rootAbs rootName cs,
      (scan rootAbs rootName cs (litFind true "") ⟨false, true, false, false, true⟩).count
        (print_entry e (renderPath e.relPath) ⟨false, true, false, false, true⟩) = 1 := by
  have hmap : scan rootAbs rootName cs (litFind true "") ⟨false, true, false, false, true⟩ =
      (walker ⟨false, true, false, false, true⟩ rootAbs rootName cs).map
        (fun e => print_entry e (renderPath e.relPath) ⟨false, true, false, false, true⟩) := by
    unfold scan
    refine filterMap_all_some _ _ _ ?_
    intro e _
    simp [processEntry, stripPfx_append, litFind_empty]
  have hpaths := walker_paths ⟨false, true, false, false, true⟩ rootAbs rootName cs hwf hnd
  have hstrNodup : (((walker ⟨false, true, false, false, true⟩ rootAbs rootName cs).map
      DirEntry.relPath).map renderPath).Nodup := by
    refine List.Nodup.map_on ?_ hpaths.1
    intro q1 hq1 q2 hq2 heq
    rcases List.mem_map.mp hq1 with ⟨e1, he1, hq1e⟩
    rcases List.mem_map.mp hq2 with ⟨e2, he2, hq2e⟩
    rw [← hq1e, ← hq2e] at heq ⊢
    exact renderPath_inj _ _ (hpaths.2 e1 he1) (hpaths.2 e2 he2) heq
  have hNodup : (scan rootAbs rootName cs (litFind true "")
      ⟨false, true, false, false, true⟩).Nodup := by
    rw [hmap]
    refine List.Nodup.of_map Line.str ?_
    rw [List.map_map]
    have hcomp : ((walker ⟨false, true, false, false, true⟩ rootAbs rootName cs).map
        (Line.str ∘ fun e => print_entry e (renderPath e.relPath)
          ⟨false, true, false, false, true⟩)) =
        ((walker ⟨false, true, false, false, true⟩ rootAbs rootName cs).map
          DirEntry.relPath).map renderPath := by
      rw [List.map_map]
      refine List.map_congr_left ?_
      intro e _
      simp [Function.comp, str_print_entry]
    rw [hcomp]
    exact hstrNodup
  refine ⟨rfl, litFind_empty ci s, rfl, hmap, hNodup, ?_⟩
  intro e he
  refine List.count_eq_one_of_mem hNodup ?_
  rw [hmap]
  exact List.mem_map_of_mem _ he

/-- Witness for C5 on a concrete well-formed tree. -/
theorem empty_pattern_witness :
    (wfForest [.dir "a" [.file "b"], .file "c"] = true ∧
     nodupNames [.dir "a" [.file "b"], .file "c"] = true) ∧
    (patternOf [] = "" ∧
     litFind true "" "x" = some 0 ∧
     mkConfig ⟨false, false, false, false, false⟩ (patternOf []) =
       ⟨false, true, false, false, true⟩ ∧
     scan ["r"] "r" [.dir "a" [.file "b"], .file "c"] (litFind true "")
         ⟨false, true, false, false, true⟩ =
       (walker ⟨false, true, false, false, true⟩ ["r"] "r"
           [.dir "a" [.file "b"], .file "c"]).map
         (fun e => print_entry e (renderPath e.relPath) ⟨false, true, false, false, true⟩) ∧
     (scan ["r"] "r" [.dir "a" [.file "b"], .file "c"] (litFind true "")
         ⟨false, true, false, false, true⟩).Nodup ∧
     ∀ e ∈ walker ⟨false, true, false, false, true⟩ ["r"] "r"
         [.dir "a" [.file "b"], .file "c"],
       (scan ["r"] "r" [.dir "a" [.file "b"], .file "c"] (litFind true "")
           ⟨false, true, false, false, true⟩).count
         (print_entry e (renderPath e.relPath) ⟨false, true, false, false, true⟩) = 1) :=
  ⟨⟨by decide, by decide⟩,
   empty_pattern_prints_each_entry_once ["r"] "r" [.dir "a" [.file "b"], .file "c"]
     true "x" (by decide) (by decide)⟩
